import Mathlib

/- Shallow embedding of `src/wmsmaptype.ts`: the multi-resolution tile cache and
   LOD compositing engine of `WmsMapType`.  Images (`HTMLImageElement`) are
   modelled as numeric handles; a canvas is modelled as the ordered list of
   `drawImage` calls performed on it.  The sparse 4-D image cache
   `imageCache[zoom][y][x][lod]` is modelled as a function from the three grid
   indices to an optional sparse LOD array (holes are `none`), which has the
   same read semantics as the JS sparse arrays.  All engine routines below are
   direct translations of the source functions of the same names. -/

namespace Wms

/-- An image handle (the identity of an `HTMLImageElement`). -/
abbrev Image := Nat

/-- A sparse LOD-indexed mipmap (`HTMLImageElement[]`); holes are `none`. -/
abbrev Mipmap := List (Option Image)

/-- A tile-grid coordinate (`Point` in the source). -/
structure Point where
  x : Nat
  y : Nat
deriving DecidableEq

/-- An integer rectangle (`Rect` in the source). -/
structure Rect where
  x : Nat
  y : Nat
  w : Nat
  h : Nat
deriving DecidableEq

/-- One `drawImage(image, dx, dy, dw, dh)` call recorded on a canvas. -/
structure DrawOp where
  img : Image
  dx : Int
  dy : Int
  dw : Int
  dh : Int
deriving DecidableEq

/-- The tile cache `imageCache[zoom][y][x]`, as a total read function:
    absent cells read as `none`, exactly like `imageCache[zoom]?.[y]?.[x]`. -/
abbrev CacheT := Nat → Nat → Nat → Option Mipmap

/-- The everywhere-empty cache. -/
def emptyCache : CacheT := fun _ _ _ => none

/-- Read `mipmap[lod]`: JS sparse-array indexing, which is `undefined` for an
    index off the populated range and for a negative index. -/
def mipGet (m : Mipmap) (lod : Int) : Option Image :=
  if lod < 0 then none else m.getD lod.toNat none

/-- Read `imageCache[zoom]?.[y]?.[x]?.[lod]`. -/
def cacheLookup (cache : CacheT) (zoom y x : Nat) (lod : Int) : Option Image :=
  (cache zoom y x).bind (fun m => mipGet m lod)

/-- The loop body of `findNearestLod`, visiting the populated entries of the
    sparse mipmap in ascending LOD order (`forEach` order).  An entry replaces
    the best seen so far iff `!(difference >= bestDifference)`: always while
    `bestDifference` is still `undefined`, and on strictly smaller difference
    once it is a number. -/
def findNearestLodFrom : Mipmap → Nat → Int → Option Image × Option Nat → Option Image × Option Nat
  | [], _, _, best => best
  | none :: rest, idx, t, best => findNearestLodFrom rest (idx + 1) t best
  | some img :: rest, idx, t, best =>
      let d := ((idx : Int) - t).natAbs
      let best' :=
        match best.2 with
        | none => (some img, some d)
        | some bd => if d < bd then (some img, some d) else best
      findNearestLodFrom rest (idx + 1) t best'

/-- `findNearestLod(mipmap, targetLod, betterThan?)`, returning
    `[bestImage, bestDifference]`. -/
def findNearestLod (m : Mipmap) (targetLod : Int) (betterThan : Option Nat) :
    Option Image × Option Nat :=
  findNearestLodFrom m 0 targetLod (none, betterThan)

/-- `findNearestLod` specialised to a numeric `betterThan` bound, as used by
    `compositeFromSmaller`: there `proxyBetterThan` is always a number, and the
    returned `bestDifference` is then also always a number (it starts at
    `betterThan` and is only ever replaced by a strictly smaller difference);
    see `findNearestLod_some_bound`. -/
def findNearestLodB (m : Mipmap) (targetLod : Int) (betterThan : Nat) :
    Option Image × Nat :=
  let r := findNearestLod m targetLod (some betterThan)
  (r.1, r.2.getD betterThan)

/-- With a numeric bound the returned difference is a number no larger than
    the bound. -/
theorem findNearestLodFrom_some_bound :
    ∀ (rest : Mipmap) (idx : Nat) (t : Int) (bi : Option Image) (b : Nat),
      ∃ b' ≤ b, (findNearestLodFrom rest idx t (bi, some b)).2 = some b' := by
  intro rest
  induction rest with
  | nil => intro idx t bi b; exact ⟨b, le_refl b, rfl⟩
  | cons hd tl ih =>
    intro idx t bi b
    match hd with
    | none => simpa [findNearestLodFrom] using ih (idx + 1) t bi b
    | some img =>
      simp only [findNearestLodFrom]
      by_cases hlt : ((idx : Int) - t).natAbs < b
      · simp only [hlt, if_pos]
        obtain ⟨b', hb', heq⟩ := ih (idx + 1) t (some img) ((idx : Int) - t).natAbs
        exact ⟨b', le_trans hb' (le_of_lt hlt), heq⟩
      · simp only [hlt, if_neg, not_false_iff]
        exact ih (idx + 1) t bi b

theorem findNearestLod_some_bound (m : Mipmap) (t : Int) (b : Nat) :
    ∃ b' ≤ b, (findNearestLod m t (some b)).2 = some b' :=
  findNearestLodFrom_some_bound m 0 t none b

theorem findNearestLodB_snd_le (m : Mipmap) (t : Int) (b : Nat) :
    (findNearestLodB m t b).2 ≤ b := by
  obtain ⟨b', hb', heq⟩ := findNearestLod_some_bound m t b
  simp [findNearestLodB, heq, hb']

/-- The child coordinate `{x: (coord.x << 1) + i, y: (coord.y << 1) + j}`. -/
def childCoord (coord : Point) (i j : Bool) : Point :=
  ⟨(coord.x <<< 1) + cond i 1 0, (coord.y <<< 1) + cond j 1 0⟩

/-- The destination sub-rectangle `cd` of quadrant `(i, j)` inside `drect`,
    exactly as computed in `compositeFromSmaller`: the left/top halves get
    `w >> 1` / `h >> 1`, the right/bottom halves absorb the remainder. -/
def quadRect (r : Rect) (i j : Bool) : Rect :=
  ⟨if i then r.x + (r.w >>> 1) else r.x,
   if j then r.y + (r.h >>> 1) else r.y,
   if i then r.w - (r.w >>> 1) else r.w >>> 1,
   if j then r.h - (r.h >>> 1) else r.h >>> 1⟩

/-- `canvas.drawImage(image, r.x, r.y, r.w, r.h)` with a `Rect` destination. -/
def drawOp (img : Image) (r : Rect) : DrawOp :=
  ⟨img, r.x, r.y, r.w, r.h⟩

/-- Membership of a pixel in a rectangle (half-open on both axes). -/
def inRect (r : Rect) (px py : Nat) : Prop :=
  r.x ≤ px ∧ px < r.x + r.w ∧ r.y ≤ py ∧ py < r.y + r.h

/-- `compositeFromSmaller(canvas, coord, drect, zoom, lod, proxyBetterThan)`.
    The canvas is threaded explicitly as the list of draw calls so far; the
    returned flag is `complete`.  The `j`/`i` loops over the four quadrants are
    unrolled in source order `(i=0,j=0), (i=1,j=0), (i=0,j=1), (i=1,j=1)`:
    a quadrant with an exact cache entry at `lod` draws it and contributes
    `true`; otherwise a proxy (any other LOD beating `proxyBetterThan`) is
    drawn when available and the function recurses one zoom finer and one LOD
    coarser with the possibly tightened bound. -/
def compositeFromSmaller (cache : CacheT) (coord : Point) (drect : Rect)
    (zoom : Nat) (lod : Int) (pbt : Nat) (canvas : List DrawOp) : List DrawOp × Bool :=
  if lod + (pbt : Int) < 0 then (canvas, false)
  else
    let s1 :=
      match cache zoom (childCoord coord false false).y (childCoord coord false false).x with
      | none =>
          compositeFromSmaller cache (childCoord coord false false)
            (quadRect drect false false) (zoom + 1) (lod - 1) pbt canvas
      | some m =>
          match mipGet m lod with
          | some child => (canvas ++ [drawOp child (quadRect drect false false)], true)
          | none =>
              compositeFromSmaller cache (childCoord coord false false)
                (quadRect drect false false) (zoom + 1) (lod - 1) (findNearestLodB m lod pbt).2
                (canvas ++ (match (findNearestLodB m lod pbt).1 with
                  | some p => [drawOp p (quadRect drect false false)]
                  | none => []))
    let s2 :=
      match cache zoom (childCoord coord true false).y (childCoord coord true false).x with
      | none =>
          compositeFromSmaller cache (childCoord coord true false)
            (quadRect drect true false) (zoom + 1) (lod - 1) pbt s1.1
      | some m =>
          match mipGet m lod with
          | some child => (s1.1 ++ [drawOp child (quadRect drect true false)], true)
          | none =>
              compositeFromSmaller cache (childCoord coord true false)
                (quadRect drect true false) (zoom + 1) (lod - 1) (findNearestLodB m lod pbt).2
                (s1.1 ++ (match (findNearestLodB m lod pbt).1 with
                  | some p => [drawOp p (quadRect drect true false)]
                  | none => []))
    let s3 :=
      match cache zoom (childCoord coord false true).y (childCoord coord false true).x with
      | none =>
          compositeFromSmaller cache (childCoord coord false true)
            (quadRect drect false true) (zoom + 1) (lod - 1) pbt s2.1
      | some m =>
          match mipGet m lod with
          | some child => (s2.1 ++ [drawOp child (quadRect drect false true)], true)
          | none =>
              compositeFromSmaller cache (childCoord coord false true)
                (quadRect drect false true) (zoom + 1) (lod - 1) (findNearestLodB m lod pbt).2
                (s2.1 ++ (match (findNearestLodB m lod pbt).1 with
                  | some p => [drawOp p (quadRect drect false true)]
                  | none => []))
    let s4 :=
      match cache zoom (childCoord coord true true).y (childCoord coord true true).x with
      | none =>
          compositeFromSmaller cache (childCoord coord true true)
            (quadRect drect true true) (zoom + 1) (lod - 1) pbt s3.1
      | some m =>
          match mipGet m lod with
          | some child => (s3.1 ++ [drawOp child (quadRect drect true true)], true)
          | none =>
              compositeFromSmaller cache (childCoord coord true true)
                (quadRect drect true true) (zoom + 1) (lod - 1) (findNearestLodB m lod pbt).2
                (s3.1 ++ (match (findNearestLodB m lod pbt).1 with
                  | some p => [drawOp p (quadRect drect true true)]
                  | none => []))
    (s4.1, ((s1.2 && s2.2) && s3.2) && s4.2)
termination_by (lod + pbt + 1).toNat
decreasing_by
  all_goals
    first
    | (have hb := findNearestLodB_snd_le m lod pbt; omega)
    | omega

/-- One quadrant of `compositeFromSmaller`'s loop body, as a standalone
    function (identical to each unrolled quadrant above). -/
def quadStep (cache : CacheT) (coord : Point) (drect : Rect) (zoom : Nat)
    (lod : Int) (pbt : Nat) (i j : Bool) (canvas : List DrawOp) : List DrawOp × Bool :=
  match cache zoom (childCoord coord i j).y (childCoord coord i j).x with
  | none =>
      compositeFromSmaller cache (childCoord coord i j)
        (quadRect drect i j) (zoom + 1) (lod - 1) pbt canvas
  | some m =>
      match mipGet m lod with
      | some child => (canvas ++ [drawOp child (quadRect drect i j)], true)
      | none =>
          compositeFromSmaller cache (childCoord coord i j)
            (quadRect drect i j) (zoom + 1) (lod - 1) (findNearestLodB m lod pbt).2
            (canvas ++ (match (findNearestLodB m lod pbt).1 with
              | some p => [drawOp p (quadRect drect i j)]
              | none => []))

/-- `compositeFromSmaller` unfolded as its guard followed by the four quadrant
    steps in loop order, the canvas threaded through and `complete` the
    conjunction of the quadrants' outcomes. -/
theorem compositeFromSmaller_eq (cache : CacheT) (coord : Point) (drect : Rect)
    (zoom : Nat) (lod : Int) (pbt : Nat) (canvas : List DrawOp) :
    compositeFromSmaller cache coord drect zoom lod pbt canvas =
      if lod + (pbt : Int) < 0 then (canvas, false)
      else
        let s1 := quadStep cache coord drect zoom lod pbt false false canvas
        let s2 := quadStep cache coord drect zoom lod pbt true false s1.1
        let s3 := quadStep cache coord drect zoom lod pbt false true s2.1
        let s4 := quadStep cache coord drect zoom lod pbt true true s3.1
        (s4.1, ((s1.2 && s2.2) && s3.2) && s4.2) := by
  rw [compositeFromSmaller]
  rfl

/-- The `complete` flag does not depend on the draw calls already on the
    canvas (the canvas only accumulates). -/
theorem cfs_snd_canvas_aux :
    ∀ (n : Nat) (cache : CacheT) (coord : Point) (drect : Rect) (zoom : Nat)
      (lod : Int) (pbt : Nat) (c c' : List DrawOp),
      (lod + (pbt : Int) + 1).toNat ≤ n →
      (compositeFromSmaller cache coord drect zoom lod pbt c).2 =
        (compositeFromSmaller cache coord drect zoom lod pbt c').2 := by
  intro n
  induction n with
  | zero =>
    intro cache coord drect zoom lod pbt c c' hn
    have hneg : lod + (pbt : Int) < 0 := by omega
    rw [compositeFromSmaller_eq, compositeFromSmaller_eq, if_pos hneg, if_pos hneg]
  | succ n ih =>
    intro cache coord drect zoom lod pbt c c' hn
    by_cases hneg : lod + (pbt : Int) < 0
    · rw [compositeFromSmaller_eq, compositeFromSmaller_eq, if_pos hneg, if_pos hneg]
    · have hq : ∀ (c c' : List DrawOp) (i j : Bool),
          (quadStep cache coord drect zoom lod pbt i j c).2 =
            (quadStep cache coord drect zoom lod pbt i j c').2 := by
        intro c c' i j
        unfold quadStep
        split
        next hcell => exact ih _ _ _ _ _ _ c c' (by omega)
        next m hcell =>
          split
          next child hchild => rfl
          next hchild =>
            have hb := findNearestLodB_snd_le m lod pbt
            exact ih _ _ _ _ _ _ _ _ (by omega)
      simp only [compositeFromSmaller_eq, if_neg hneg]
      rw [hq c c' false false,
          hq (quadStep cache coord drect zoom lod pbt false false c).1
             (quadStep cache coord drect zoom lod pbt false false c').1 true false,
          hq (quadStep cache coord drect zoom lod pbt true false
                (quadStep cache coord drect zoom lod pbt false false c).1).1
             (quadStep cache coord drect zoom lod pbt true false
                (quadStep cache coord drect zoom lod pbt false false c').1).1 false true,
          hq (quadStep cache coord drect zoom lod pbt false true
                (quadStep cache coord drect zoom lod pbt true false
                  (quadStep cache coord drect zoom lod pbt false false c).1).1).1
             (quadStep cache coord drect zoom lod pbt false true
                (quadStep cache coord drect zoom lod pbt true false
                  (quadStep cache coord drect zoom lod pbt false false c').1).1).1 true true]

theorem cfs_snd_canvas (cache : CacheT) (coord : Point) (drect : Rect) (zoom : Nat)
    (lod : Int) (pbt : Nat) (c c' : List DrawOp) :
    (compositeFromSmaller cache coord drect zoom lod pbt c).2 =
      (compositeFromSmaller cache coord drect zoom lod pbt c').2 :=
  cfs_snd_canvas_aux ((lod + (pbt : Int) + 1).toNat) cache coord drect zoom lod pbt c c'
    (le_refl _)

theorem quadStep_snd_canvas (cache : CacheT) (coord : Point) (drect : Rect) (zoom : Nat)
    (lod : Int) (pbt : Nat) (i j : Bool) (c c' : List DrawOp) :
    (quadStep cache coord drect zoom lod pbt i j c).2 =
      (quadStep cache coord drect zoom lod pbt i j c').2 := by
  unfold quadStep
  split
  next hcell => exact cfs_snd_canvas _ _ _ _ _ _ _ _
  next m hcell =>
    split
    next child hchild => rfl
    next hchild => exact cfs_snd_canvas _ _ _ _ _ _ _ _

/-- The completeness outcome of one quadrant `(i, j)` of
    `compositeFromSmaller`'s loop: `true` for an exact cache hit at `lod`,
    otherwise the outcome of the recursive composite over that quadrant. -/
def quadComplete (cache : CacheT) (coord : Point) (drect : Rect) (zoom : Nat)
    (lod : Int) (pbt : Nat) (i j : Bool) : Bool :=
  (quadStep cache coord drect zoom lod pbt i j []).2

/-- The `proxyBetterThan` bound that `compositeFromSmaller` passes to the
    recursive call of quadrant cell `cc`: the caller's own bound, tightened
    only by the proxy search in `cc`'s mipmap. -/
def quadBound (cache : CacheT) (zoom : Nat) (lod : Int) (pbt : Nat) (cc : Point) : Nat :=
  match cache zoom cc.y cc.x with
  | none => pbt
  | some m =>
    match mipGet m lod with
    | some _ => pbt
    | none => (findNearestLodB m lod pbt).2

/-- The proxy draw (if any) that quadrant cell `cc` contributes before its
    recursive call. -/
def quadProxyDraw (cache : CacheT) (zoom : Nat) (lod : Int) (pbt : Nat)
    (cc : Point) (cd : Rect) : List DrawOp :=
  match cache zoom cc.y cc.x with
  | none => []
  | some m =>
    match mipGet m lod with
    | some _ => []
    | none =>
      match (findNearestLodB m lod pbt).1 with
      | some p => [drawOp p cd]
      | none => []

/-- When quadrant `(i, j)`'s cell has no exact entry at `lod`, its step is the
    recursive composite one zoom finer and one LOD coarser, with the bound
    `quadBound` derived from the caller's bound and this cell's own proxy
    lookup alone, after drawing this cell's proxy (if any). -/
theorem quadStep_recursion (cache : CacheT) (coord : Point) (drect : Rect) (zoom : Nat)
    (lod : Int) (pbt : Nat) (i j : Bool) (canvas : List DrawOp)
    (h : cacheLookup cache zoom (childCoord coord i j).y (childCoord coord i j).x lod = none) :
    quadStep cache coord drect zoom lod pbt i j canvas =
      compositeFromSmaller cache (childCoord coord i j) (quadRect drect i j)
        (zoom + 1) (lod - 1) (quadBound cache zoom lod pbt (childCoord coord i j))
        (canvas ++ quadProxyDraw cache zoom lod pbt (childCoord coord i j) (quadRect drect i j)) := by
  unfold quadStep quadBound quadProxyDraw
  split
  next hcell => simp
  next m hcell =>
    split
    next child hchild =>
      exfalso
      unfold cacheLookup at h
      rw [hcell] at h
      simp [hchild] at h
    next hchild => rfl

/-- On the everywhere-empty cache, `compositeFromSmaller` draws nothing and is
    never complete. -/
theorem cfs_empty_aux :
    ∀ (n : Nat) (coord : Point) (drect : Rect) (zoom : Nat) (lod : Int) (pbt : Nat)
      (canvas : List DrawOp),
      (lod + (pbt : Int) + 1).toNat ≤ n →
      compositeFromSmaller emptyCache coord drect zoom lod pbt canvas = (canvas, false) := by
  intro n
  induction n with
  | zero =>
    intro coord drect zoom lod pbt canvas hn
    have hneg : lod + (pbt : Int) < 0 := by omega
    rw [compositeFromSmaller_eq, if_pos hneg]
  | succ n ih =>
    intro coord drect zoom lod pbt canvas hn
    by_cases hneg : lod + (pbt : Int) < 0
    · rw [compositeFromSmaller_eq, if_pos hneg]
    · have hq : ∀ (c : List DrawOp) (i j : Bool),
          quadStep emptyCache coord drect zoom lod pbt i j c = (c, false) := by
        intro c i j
        unfold quadStep
        simp only [emptyCache]
        exact ih _ _ _ _ _ _ (by omega)
      simp only [compositeFromSmaller_eq, if_neg hneg]
      simp [hq]

theorem cfs_empty (coord : Point) (drect : Rect) (zoom : Nat) (lod : Int) (pbt : Nat)
    (canvas : List DrawOp) :
    compositeFromSmaller emptyCache coord drect zoom lod pbt canvas = (canvas, false) :=
  cfs_empty_aux ((lod + (pbt : Int) + 1).toNat) coord drect zoom lod pbt canvas (le_refl _)

/-- If no cell the composite can visit holds an exact entry at its
    level-appropriate LOD (`lod` minus the number of zoom levels below the
    entry point), the composite is never complete. -/
theorem cfs_noExact_aux :
    ∀ (n : Nat) (cache : CacheT) (coord : Point) (drect : Rect) (zoom : Nat)
      (lod : Int) (pbt : Nat) (canvas : List DrawOp),
      (lod + (pbt : Int) + 1).toNat ≤ n →
      (∀ z y x, zoom ≤ z →
        cacheLookup cache z y x (lod - ((z - zoom : Nat) : Int)) = none) →
      (compositeFromSmaller cache coord drect zoom lod pbt canvas).2 = false := by
  intro n
  induction n with
  | zero =>
    intro cache coord drect zoom lod pbt canvas hn hno
    have hneg : lod + (pbt : Int) < 0 := by omega
    rw [compositeFromSmaller_eq, if_pos hneg]
  | succ n ih =>
    intro cache coord drect zoom lod pbt canvas hn hno
    by_cases hneg : lod + (pbt : Int) < 0
    · rw [compositeFromSmaller_eq, if_pos hneg]
    · have hno' : ∀ z y x, zoom + 1 ≤ z →
          cacheLookup cache z y x ((lod - 1) - ((z - (zoom + 1) : Nat) : Int)) = none := by
        intro z y x hz
        have harith : (lod - 1) - ((z - (zoom + 1) : Nat) : Int) =
            lod - ((z - zoom : Nat) : Int) := by omega
        rw [harith]
        exact hno z y x (by omega)
      have hq : ∀ (c : List DrawOp) (i j : Bool),
          (quadStep cache coord drect zoom lod pbt i j c).2 = false := by
        intro c i j
        unfold quadStep
        split
        next hcell => exact ih _ _ _ _ _ _ _ (by omega) hno'
        next m hcell =>
          have hchild : mipGet m lod = none := by
            have h0 := hno zoom (childCoord coord i j).y (childCoord coord i j).x (le_refl _)
            unfold cacheLookup at h0
            rw [hcell] at h0
            simpa using h0
          split
          next child hchild2 => rw [hchild2] at hchild; exact absurd hchild (by simp)
          next hchild2 =>
            have hb := findNearestLodB_snd_le m lod pbt
            exact ih _ _ _ _ _ _ _ (by omega) hno'
      simp only [compositeFromSmaller_eq, if_neg hneg]
      simp [hq]

theorem cfs_noExact (cache : CacheT) (coord : Point) (drect : Rect) (zoom : Nat)
    (lod : Int) (pbt : Nat) (canvas : List DrawOp)
    (hno : ∀ z y x, zoom ≤ z →
      cacheLookup cache z y x (lod - ((z - zoom : Nat) : Int)) = none) :
    (compositeFromSmaller cache coord drect zoom lod pbt canvas).2 = false :=
  cfs_noExact_aux ((lod + (pbt : Int) + 1).toNat) cache coord drect zoom lod pbt canvas
    (le_refl _) hno

theorem childCoord_x_sr (coord : Point) (i j : Bool) :
    (childCoord coord i j).x >>> 1 = coord.x := by
  cases i <;> cases j <;>
    simp [childCoord, Nat.shiftLeft_eq, Nat.shiftRight_eq_div_pow] <;> omega

theorem childCoord_y_sr (coord : Point) (i j : Bool) :
    (childCoord coord i j).y >>> 1 = coord.y := by
  cases i <;> cases j <;>
    simp [childCoord, Nat.shiftLeft_eq, Nat.shiftRight_eq_div_pow] <;> omega

/-- `compositeFromSmaller` reads only cells in the subtree under `coord`'s
    children: two caches agreeing on every cell `(z, y, x)` with `z ≥ zoom`
    and `y >> (z - zoom + 1) = coord.y`, `x >> (z - zoom + 1) = coord.x`
    produce the same composite. -/
theorem cfs_frame_aux :
    ∀ (n : Nat) (cache1 cache2 : CacheT) (coord : Point) (drect : Rect) (zoom : Nat)
      (lod : Int) (pbt : Nat) (canvas : List DrawOp),
      (lod + (pbt : Int) + 1).toNat ≤ n →
      (∀ z y x, zoom ≤ z → y >>> (z - zoom + 1) = coord.y → x >>> (z - zoom + 1) = coord.x →
        cache1 z y x = cache2 z y x) →
      compositeFromSmaller cache1 coord drect zoom lod pbt canvas =
        compositeFromSmaller cache2 coord drect zoom lod pbt canvas := by
  intro n
  induction n with
  | zero =>
    intro cache1 cache2 coord drect zoom lod pbt canvas hn hagree
    have hneg : lod + (pbt : Int) < 0 := by omega
    rw [compositeFromSmaller_eq, compositeFromSmaller_eq, if_pos hneg, if_pos hneg]
  | succ n ih =>
    intro cache1 cache2 coord drect zoom lod pbt canvas hn hagree
    by_cases hneg : lod + (pbt : Int) < 0
    · rw [compositeFromSmaller_eq, compositeFromSmaller_eq, if_pos hneg, if_pos hneg]
    · have hq : ∀ (c : List DrawOp) (i j : Bool),
          quadStep cache1 coord drect zoom lod pbt i j c =
            quadStep cache2 coord drect zoom lod pbt i j c := by
        intro c i j
        have hagree' : ∀ z y x, zoom + 1 ≤ z →
            y >>> (z - (zoom + 1) + 1) = (childCoord coord i j).y →
            x >>> (z - (zoom + 1) + 1) = (childCoord coord i j).x →
            cache1 z y x = cache2 z y x := by
          intro z y x hz hy hx
          apply hagree z y x (by omega)
          · have hzz : z - zoom + 1 = (z - (zoom + 1) + 1) + 1 := by omega
            rw [hzz, Nat.shiftRight_add, hy]
            exact childCoord_y_sr coord i j
          · have hzz : z - zoom + 1 = (z - (zoom + 1) + 1) + 1 := by omega
            rw [hzz, Nat.shiftRight_add, hx]
            exact childCoord_x_sr coord i j
        have hcell : cache1 zoom (childCoord coord i j).y (childCoord coord i j).x =
            cache2 zoom (childCoord coord i j).y (childCoord coord i j).x := by
          apply hagree zoom _ _ (le_refl _)
          · have hzz : zoom - zoom + 1 = 1 := by omega
            rw [hzz]; exact childCoord_y_sr coord i j
          · have hzz : zoom - zoom + 1 = 1 := by omega
            rw [hzz]; exact childCoord_x_sr coord i j
        unfold quadStep
        rw [hcell]
        split
        next hcell2 => exact ih _ _ _ _ _ _ _ _ (by omega) hagree'
        next m hcell2 =>
          split
          next child hchild => rfl
          next hchild =>
            have hb := findNearestLodB_snd_le m lod pbt
            exact ih _ _ _ _ _ _ _ _ (by omega) hagree'
      simp only [compositeFromSmaller_eq, if_neg hneg]
      rw [hq canvas false false, hq _ true false, hq _ false true, hq _ true true]

theorem cfs_frame (cache1 cache2 : CacheT) (coord : Point) (drect : Rect) (zoom : Nat)
    (lod : Int) (pbt : Nat) (canvas : List DrawOp)
    (hagree : ∀ z y x, zoom ≤ z → y >>> (z - zoom + 1) = coord.y →
      x >>> (z - zoom + 1) = coord.x → cache1 z y x = cache2 z y x) :
    compositeFromSmaller cache1 coord drect zoom lod pbt canvas =
      compositeFromSmaller cache2 coord drect zoom lod pbt canvas :=
  cfs_frame_aux ((lod + (pbt : Int) + 1).toNat) cache1 cache2 coord drect zoom lod pbt canvas
    (le_refl _) hagree

/-- The `best` record of `tileFromLarger`'s ancestor walk. -/
structure BestTile where
  image : Image
  x : Nat
  y : Nat
  levelsAbove : Nat
deriving DecidableEq

/-- The ancestor-walk loop of `tileFromLarger`:
    `for (let levelsAbove = 0; (mipZoom = zoom - levelsAbove) >= 0; ++levelsAbove)`.
    `fuel` is the number of remaining iterations (`zoom + 1 - la`), so the
    walk visits `levelsAbove = 0 .. zoom`; the accumulator is the current
    `best` candidate and `bestDifference`, both updated exactly as in the
    source (`bestDifference` is reassigned by the destructuring even when the
    candidate is null). -/
def tflAux (cache : CacheT) (coord : Point) (lod : Nat) (zoom : Nat) :
    Nat → Nat → Option BestTile × Option Nat → Option BestTile × Option Nat
  | 0, _, acc => acc
  | fuel + 1, la, (best, bd) =>
      match cache (zoom - la) (coord.y >>> la) (coord.x >>> la) with
      | none => tflAux cache coord lod zoom fuel (la + 1) (best, bd)
      | some m =>
          match findNearestLod m ((lod + la : Nat) : Int) bd with
          | (some img, bd') =>
              tflAux cache coord lod zoom fuel (la + 1)
                (some ⟨img, coord.x >>> la, coord.y >>> la, la⟩, bd')
          | (none, bd') => tflAux cache coord lod zoom fuel (la + 1) (best, bd')

/-- `tileFromLarger(zoom, coord, lod)`: walk the ancestor levels; if a best
    candidate was found, draw it on a fresh tile-sized canvas scaled to
    `ds = tileSize << levelsAbove` at offset
    `((best.coord << levelsAbove) - coord) * tileSize`, returning the canvas
    and the best difference; otherwise `[null, undefined]`. -/
def tileFromLarger (cache : CacheT) (zoom : Nat) (coord : Point) (lod : Nat)
    (tileSize : Nat) : Option (List DrawOp) × Option Nat :=
  match tflAux cache coord lod zoom (zoom + 1) 0 (none, none) with
  | (some b, bd) =>
      (some [⟨b.image,
        (((b.x <<< b.levelsAbove : Nat) : Int) - (coord.x : Int)) * (tileSize : Int),
        (((b.y <<< b.levelsAbove : Nat) : Int) - (coord.y : Int)) * (tileSize : Int),
        ((tileSize <<< b.levelsAbove : Nat) : Int),
        ((tileSize <<< b.levelsAbove : Nat) : Int)⟩], bd)
  | (none, _) => (none, none)

/-- `tileFromSmaller`: a fresh tile-sized canvas composited by
    `compositeFromSmaller` over the whole tile rectangle, starting one zoom
    finer and one LOD coarser. -/
def tileFromSmaller (cache : CacheT) (zoom : Nat) (coord : Point) (lod : Nat)
    (pbt : Nat) (tileSize : Nat) : List DrawOp × Bool :=
  compositeFromSmaller cache coord ⟨0, 0, tileSize, tileSize⟩ (zoom + 1)
    ((lod : Int) - 1) pbt []

/-- `mipmap[lod] = image` on a JS sparse array: pads with holes up to index
    `lod` and assigns that index, overwriting any existing entry there. -/
def mipSet : Mipmap → Nat → Image → Mipmap
  | [], 0, img => [some img]
  | [], lod + 1, img => none :: mipSet [] lod img
  | _ :: rest, 0, img => some img :: rest
  | e :: rest, lod + 1, img => e :: mipSet rest lod img

/-- The cache write performed when a fetched tile finishes decoding:
    `(((imageCache[zoom] ??= [])[coord.y] ??= [])[coord.x] ??= [])[lod] = image`.
    The `??=` steps only materialise missing intermediate arrays; the final
    step is a plain assignment to index `lod`. -/
def cacheInsert (cache : CacheT) (zoom y x lod : Nat) (img : Image) : CacheT :=
  fun z' y' x' =>
    if z' = zoom ∧ y' = y ∧ x' = x then some (mipSet ((cache zoom y x).getD []) lod img)
    else cache z' y' x'

/-- The engine configuration: `tileSize`, `levelOfDetail`, `maxOversample`. -/
structure Config where
  tileSize : Nat
  levelOfDetail : Nat
  maxOversample : Nat

/-- One drawable layer of tile content: an image (cached or in-flight), or a
    composited canvas (its list of draw calls). -/
inductive Layer where
  | image : Image → Layer
  | canvas : List DrawOp → Layer
deriving DecidableEq

/-- An in-flight tile fetch: on decode completion `img` is written into the
    cache at `(zoom, y, x, lod)`. -/
structure Fetch where
  zoom : Nat
  y : Nat
  x : Nat
  lod : Nat
  img : Image
deriving DecidableEq

/-- The engine's mutable state: the image cache, the in-flight (not yet
    decoded) fetches in start order, and a counter supplying fresh handles
    for newly created `img` elements. -/
structure EngineState where
  cache : CacheT
  pending : List Fetch
  nextId : Nat

/-- JS `difference || default` where both `undefined` and `0` are falsy. -/
def jsOrDefault (o : Option Nat) (d : Nat) : Nat :=
  match o with
  | none => d
  | some v => if v = 0 then d else v

/-- The target LOD `Math.max(Math.min(levelOfDetail - zoom, maxOversample), 0)`. -/
def lodFor (cfg : Config) (zoom : Nat) : Nat :=
  (max (min ((cfg.levelOfDetail : Int) - (zoom : Int)) ((cfg.maxOversample : Int))) 0).toNat

/-- `createTileContent`: resolve from larger tiles; if exact
    (`difference == 0`, which requires a candidate so the canvas is present
    and `Option.getD` only discharges the type) return it alone; otherwise
    composite from smaller tiles with bound
    `difference || maxOversample + 1`; if complete return it alone; otherwise
    create the in-flight `img` element (a fresh handle), register its pending
    decode (whose completion is `completeFetch`), and return the stack:
    larger proxy (if any), composite, in-flight image. -/
def createTileContent (cfg : Config) (s : EngineState) (coord : Point) (zoom : Nat)
    (lod : Nat) : List Layer × EngineState :=
  match tileFromLarger s.cache zoom coord lod cfg.tileSize with
  | (fromLarger, difference) =>
    if difference = some 0 then ([Layer.canvas (fromLarger.getD [])], s)
    else
      match tileFromSmaller s.cache zoom coord lod
          (jsOrDefault difference (cfg.maxOversample + 1)) cfg.tileSize with
      | (fromSmaller, complete) =>
        if complete then ([Layer.canvas fromSmaller], s)
        else
          ((match fromLarger with
            | some fl => [Layer.canvas fl]
            | none => []) ++ [Layer.canvas fromSmaller, Layer.image s.nextId],
           ⟨s.cache, s.pending ++ [⟨zoom, coord.y, coord.x, lod, s.nextId⟩], s.nextId + 1⟩)

/-- `getTileContent(coord, zoom)`: clamp the target LOD, return the exact
    cache entry alone on a hit, else `createTileContent`. -/
def getTileContent (cfg : Config) (s : EngineState) (coord : Point) (zoom : Nat) :
    List Layer × EngineState :=
  match cacheLookup s.cache zoom coord.y coord.x ((lodFor cfg zoom : Nat) : Int) with
  | some cached => ([Layer.image cached], s)
  | none => createTileContent cfg s coord zoom (lodFor cfg zoom)

/-- Decode completion of pending fetch number `i`: writes its image into the
    cache (the `image.decode().then(...)` continuation in the source) and
    removes it from the pending list. -/
def completeFetch (s : EngineState) (i : Nat) : EngineState :=
  match s.pending[i]? with
  | none => s
  | some f => ⟨cacheInsert s.cache f.zoom f.y f.x f.lod f.img, s.pending.eraseIdx i, s.nextId⟩

theorem tflAux_empty (coord : Point) (lod zoom : Nat) :
    ∀ (fuel la : Nat) (acc : Option BestTile × Option Nat),
      tflAux emptyCache coord lod zoom fuel la acc = acc := by
  intro fuel
  induction fuel with
  | zero => intro la acc; rfl
  | succ n ih =>
    intro la acc
    cases acc with
    | mk best bd => simp [tflAux, emptyCache, ih]

theorem tileFromLarger_empty (zoom : Nat) (coord : Point) (lod tileSize : Nat) :
    tileFromLarger emptyCache zoom coord lod tileSize = (none, none) := by
  unfold tileFromLarger
  rw [tflAux_empty]

/-- On a state with an empty cache, `getTileContent` misses, finds no larger
    or smaller data, and returns a blank composite canvas plus the in-flight
    fetch image, registering the fetch. -/
theorem getTileContent_empty (cfg : Config) (p : List Fetch) (n : Nat) (coord : Point)
    (zoom : Nat) :
    getTileContent cfg ⟨emptyCache, p, n⟩ coord zoom =
      ([Layer.canvas [], Layer.image n],
       ⟨emptyCache, p ++ [⟨zoom, coord.y, coord.x, lodFor cfg zoom, n⟩], n + 1⟩) := by
  unfold getTileContent createTileContent
  have h1 : cacheLookup emptyCache zoom coord.y coord.x ((lodFor cfg zoom : Nat) : Int) =
      none := rfl
  rw [h1]
  simp only [tileFromLarger_empty, tileFromSmaller, cfs_empty]
  simp [jsOrDefault]

theorem mipSet_getD_self : ∀ (lod : Nat) (m : Mipmap) (img : Image),
    (mipSet m lod img).getD lod none = some img := by
  intro lod
  induction lod with
  | zero =>
    intro m img
    match m with
    | [] => rfl
    | e :: rest => rfl
  | succ k ih =>
    intro m img
    match m with
    | [] => simpa [mipSet] using ih [] img
    | e :: rest => simpa [mipSet] using ih rest img

theorem mipSet_getD_other : ∀ (lod : Nat) (m : Mipmap) (img : Image) (k : Nat), k ≠ lod →
    (mipSet m lod img).getD k none = m.getD k none := by
  intro lod
  induction lod with
  | zero =>
    intro m img k hk
    match m, k with
    | [], 0 => exact absurd rfl hk
    | [], k + 1 => simp [mipSet]
    | e :: rest, 0 => exact absurd rfl hk
    | e :: rest, k + 1 => simp [mipSet]
  | succ nl ih =>
    intro m img k hk
    match m, k with
    | [], 0 => simp [mipSet]
    | [], k + 1 =>
      simpa [mipSet] using ih [] img k (by omega)
    | e :: rest, 0 => simp [mipSet]
    | e :: rest, k + 1 =>
      simpa [mipSet] using ih rest img k (by omega)

theorem mipGet_mipSet (m : Mipmap) (lod : Nat) (img : Image) (l : Int) :
    mipGet (mipSet m lod img) l = if l = (lod : Int) then some img else mipGet m l := by
  unfold mipGet
  by_cases hneg : l < 0
  · rw [if_pos hneg, if_neg (by omega : ¬l = (lod : Int)), if_pos hneg]
  · rw [if_neg hneg, if_neg hneg]
    by_cases heq : l = (lod : Int)
    · rw [if_pos heq]
      have htn : l.toNat = lod := by omega
      rw [htn]
      exact mipSet_getD_self lod m img
    · rw [if_neg heq]
      exact mipSet_getD_other lod m img l.toNat (by omega)

/-- The effect of a completed fetch's cache write, observed through reads:
    the written cell now holds exactly the newly decoded image — also when it
    already held one (the final step of the write is a plain assignment, so a
    later write replaces an earlier one) — and every other `(zoom, y, x, lod)`
    cell is untouched. -/
theorem cacheLookup_cacheInsert (cache : CacheT) (zoom y x lod : Nat) (img : Image)
    (z' y' x' : Nat) (l' : Int) :
    cacheLookup (cacheInsert cache zoom y x lod img) z' y' x' l' =
      if z' = zoom ∧ y' = y ∧ x' = x ∧ l' = (lod : Int) then some img
      else cacheLookup cache z' y' x' l' := by
  unfold cacheLookup cacheInsert
  by_cases hc : z' = zoom ∧ y' = y ∧ x' = x
  · obtain ⟨h1, h2, h3⟩ := hc
    subst h1; subst h2; subst h3
    simp only [and_self, if_pos, true_and, Option.some_bind]
    rw [mipGet_mipSet]
    by_cases hl : l' = (lod : Int)
    · simp [hl]
    · rw [if_neg hl, if_neg (by tauto)]
      cases hcell : cache z' y' x' with
      | none => simp [hcell, mipGet]
      | some mm => simp [hcell]
  · rw [if_neg hc, if_neg (by tauto)]

/-- The difference `Math.abs(lod - targetLod)` for entry index `i`. -/
def lodDiff (t : Int) (i : Nat) : Nat := ((i : Int) - t).natAbs

/-- Entry `k` of the (suffix) mipmap `rest`, whose true index is `idx + k`,
    is eligible: populated, and strictly beating the bound when one is given. -/
def eligF (rest : Mipmap) (idx : Nat) (t : Int) (bd : Option Nat) (k : Nat) : Prop :=
  (rest.getD k none).isSome = true ∧
    match bd with
    | none => True
    | some b => lodDiff t (idx + k) < b

/-- Entry `i` of the mipmap is eligible for `findNearestLod`: populated, and
    strictly beating `betterThan` when that bound is given. -/
def eligibleLod (m : Mipmap) (t : Int) (b : Option Nat) (i : Nat) : Prop :=
  (m.getD i none).isSome = true ∧
    match b with
    | none => True
    | some bd => lodDiff t i < bd

theorem eligF_zero (m : Mipmap) (t : Int) (b : Option Nat) (i : Nat) :
    eligF m 0 t b i ↔ eligibleLod m t b i := by
  cases b <;> simp [eligF, eligibleLod]

theorem eligF_cons_succ (hd : Option Image) (tl : Mipmap) (idx : Nat) (t : Int)
    (bd : Option Nat) (k : Nat) :
    eligF (hd :: tl) idx t bd (k + 1) ↔ eligF tl (idx + 1) t bd k := by
  have harith : idx + (k + 1) = (idx + 1) + k := by omega
  cases bd <;> simp [eligF, harith]

theorem eligF_cons_zero (hd : Option Image) (tl : Mipmap) (idx : Nat) (t : Int)
    (bd : Option Nat) :
    eligF (hd :: tl) idx t bd 0 ↔
      (hd.isSome = true ∧
        match bd with
        | none => True
        | some b => lodDiff t idx < b) := by
  cases bd <;> simp [eligF]

/-- Full characterisation of the `findNearestLod` loop from index `idx` on:
    either nothing eligible is left and the accumulator is returned unchanged,
    or the returned entry is an eligible entry of minimal difference, the
    first-encountered one among those (every strictly earlier eligible entry
    has strictly larger difference), and the returned difference is its. -/
theorem findNearestLodFrom_spec :
    ∀ (rest : Mipmap) (idx : Nat) (t : Int) (bi : Option Image) (bd : Option Nat),
      (findNearestLodFrom rest idx t (bi, bd) = (bi, bd) ∧ ∀ k, ¬ eligF rest idx t bd k) ∨
      (∃ k, eligF rest idx t bd k ∧
        (findNearestLodFrom rest idx t (bi, bd)).1 = rest.getD k none ∧
        (findNearestLodFrom rest idx t (bi, bd)).2 = some (lodDiff t (idx + k)) ∧
        (∀ k2, eligF rest idx t bd k2 → lodDiff t (idx + k) ≤ lodDiff t (idx + k2)) ∧
        (∀ k2, k2 < k → eligF rest idx t bd k2 → lodDiff t (idx + k) < lodDiff t (idx + k2))) := by
  intro rest
  induction rest with
  | nil =>
    intro idx t bi bd
    left
    refine ⟨rfl, ?_⟩
    intro k
    simp [eligF]
  | cons hd tl ih =>
    intro idx t bi bd
    match hd with
    | none =>
      have hstep : findNearestLodFrom (none :: tl) idx t (bi, bd) =
          findNearestLodFrom tl (idx + 1) t (bi, bd) := rfl
      rcases ih (idx + 1) t bi bd with ⟨heq, hnone⟩ | ⟨k, hk, h1, h2, hmin, hstrict⟩
      · left
        refine ⟨by rw [hstep, heq], ?_⟩
        intro k
        match k with
        | 0 => simp [eligF]
        | k + 1 => rw [eligF_cons_succ]; exact hnone k
      · right
        refine ⟨k + 1, ?_, ?_, ?_, ?_, ?_⟩
        · rw [eligF_cons_succ]; exact hk
        · rw [hstep, h1]; simp
        · rw [hstep, h2, show (idx + 1) + k = idx + (k + 1) from by omega]
        · intro k2 h2e
          match k2 with
          | 0 => exact absurd h2e (by simp [eligF])
          | k2 + 1 =>
            rw [eligF_cons_succ] at h2e
            have := hmin k2 h2e
            have ha : idx + (k + 1) = (idx + 1) + k := by omega
            have hb : idx + (k2 + 1) = (idx + 1) + k2 := by omega
            rw [ha, hb]; exact this
        · intro k2 hlt h2e
          match k2 with
          | 0 => exact absurd h2e (by simp [eligF])
          | k2 + 1 =>
            rw [eligF_cons_succ] at h2e
            have := hstrict k2 (by omega) h2e
            have ha : idx + (k + 1) = (idx + 1) + k := by omega
            have hb : idx + (k2 + 1) = (idx + 1) + k2 := by omega
            rw [ha, hb]; exact this
    | some img =>
      by_cases htake : (match bd with | none => True | some b => lodDiff t idx < b)
      · -- the head entry replaces the best so far
        have hstep : findNearestLodFrom (some img :: tl) idx t (bi, bd) =
            findNearestLodFrom tl (idx + 1) t (some img, some (lodDiff t idx)) := by
          cases bd with
          | none => rfl
          | some b =>
            simp only [findNearestLodFrom, lodDiff] at htake ⊢
            rw [if_pos htake]
        rcases ih (idx + 1) t (some img) (some (lodDiff t idx)) with
          ⟨heq, hnone⟩ | ⟨k, hk, h1, h2, hmin, hstrict⟩
        · right
          refine ⟨0, ?_, ?_, ?_, ?_, ?_⟩
          · rw [eligF_cons_zero]; exact ⟨rfl, htake⟩
          · rw [hstep, heq]; simp
          · rw [hstep, heq]; simp
          · intro k2 h2e
            match k2 with
            | 0 => exact le_refl _
            | k2 + 1 =>
              rw [eligF_cons_succ] at h2e
              have hpop := h2e.1
              have hnot : ¬ lodDiff t ((idx + 1) + k2) < lodDiff t idx := fun hlt =>
                hnone k2 ⟨hpop, hlt⟩
              have hb2 : idx + (k2 + 1) = (idx + 1) + k2 := by omega
              have hz : idx + 0 = idx := by omega
              rw [hb2, hz]
              omega
          · intro k2 hlt
            omega
        · right
          have hkb : lodDiff t ((idx + 1) + k) < lodDiff t idx := by
            have := hk
            unfold eligF at this
            exact this.2
          refine ⟨k + 1, ?_, ?_, ?_, ?_, ?_⟩
          · rw [eligF_cons_succ]
            unfold eligF at hk ⊢
            refine ⟨hk.1, ?_⟩
            cases bd with
            | none => trivial
            | some b =>
              simp only [] at htake ⊢
              omega
          · rw [hstep, h1]; simp
          · rw [hstep, h2, show (idx + 1) + k = idx + (k + 1) from by omega]
          · intro k2 h2e
            have ha : idx + (k + 1) = (idx + 1) + k := by omega
            match k2 with
            | 0 =>
              rw [ha]
              simpa using le_of_lt hkb
            | k2 + 1 =>
              rw [eligF_cons_succ] at h2e
              have hb : idx + (k2 + 1) = (idx + 1) + k2 := by omega
              rw [ha, hb]
              by_cases hsub : lodDiff t ((idx + 1) + k2) < lodDiff t idx
              · refine hmin k2 ?_
                unfold eligF at h2e ⊢
                exact ⟨h2e.1, hsub⟩
              · omega
          · intro k2 hlt h2e
            have ha : idx + (k + 1) = (idx + 1) + k := by omega
            match k2 with
            | 0 =>
              rw [ha]
              simpa using hkb
            | k2 + 1 =>
              rw [eligF_cons_succ] at h2e
              have hb : idx + (k2 + 1) = (idx + 1) + k2 := by omega
              rw [ha, hb]
              by_cases hsub : lodDiff t ((idx + 1) + k2) < lodDiff t idx
              · refine hstrict k2 (by omega) ?_
                unfold eligF at h2e ⊢
                exact ⟨h2e.1, hsub⟩
              · omega
      · -- the head entry does not beat the bound: bd = some b with diff ≥ b
        obtain ⟨b, hbd⟩ : ∃ b, bd = some b := by
          cases bd with
          | none => exact absurd trivial htake
          | some b => exact ⟨b, rfl⟩
        subst hbd
        simp only [] at htake
        have hstep : findNearestLodFrom (some img :: tl) idx t (bi, some b) =
            findNearestLodFrom tl (idx + 1) t (bi, some b) := by
          simp only [findNearestLodFrom, lodDiff] at htake ⊢
          rw [if_neg (by simpa [lodDiff] using htake)]
        rcases ih (idx + 1) t bi (some b) with ⟨heq, hnone⟩ | ⟨k, hk, h1, h2, hmin, hstrict⟩
        · left
          refine ⟨by rw [hstep, heq], ?_⟩
          intro k
          match k with
          | 0 =>
            rw [eligF_cons_zero]
            rintro ⟨-, hcon⟩
            exact htake hcon
          | k + 1 => rw [eligF_cons_succ]; exact hnone k
        · right
          refine ⟨k + 1, ?_, ?_, ?_, ?_, ?_⟩
          · rw [eligF_cons_succ]; exact hk
          · rw [hstep, h1]; simp
          · rw [hstep, h2, show (idx + 1) + k = idx + (k + 1) from by omega]
          · intro k2 h2e
            match k2 with
            | 0 =>
              rw [eligF_cons_zero] at h2e
              exact absurd h2e.2 htake
            | k2 + 1 =>
              rw [eligF_cons_succ] at h2e
              have := hmin k2 h2e
              have ha : idx + (k + 1) = (idx + 1) + k := by omega
              have hb : idx + (k2 + 1) = (idx + 1) + k2 := by omega
              rw [ha, hb]; exact this
          · intro k2 hlt h2e
            match k2 with
            | 0 =>
              rw [eligF_cons_zero] at h2e
              exact absurd h2e.2 htake
            | k2 + 1 =>
              rw [eligF_cons_succ] at h2e
              have := hstrict k2 (by omega) h2e
              have ha : idx + (k + 1) = (idx + 1) + k := by omega
              have hb : idx + (k2 + 1) = (idx + 1) + k2 := by omega
              rw [ha, hb]; exact this

/-- Every best candidate the ancestor walk can produce is the ancestor cell
    `coord >> levelsAbove` at some `levelsAbove ≤ zoom`. -/
theorem tflAux_best_inv (cache : CacheT) (coord : Point) (lod zoom : Nat) :
    ∀ (fuel la : Nat) (best : Option BestTile) (bd : Option Nat),
      la + fuel ≤ zoom + 1 →
      (∀ b, best = some b →
        b.x = coord.x >>> b.levelsAbove ∧ b.y = coord.y >>> b.levelsAbove ∧
          b.levelsAbove ≤ zoom) →
      ∀ b, (tflAux cache coord lod zoom fuel la (best, bd)).1 = some b →
        b.x = coord.x >>> b.levelsAbove ∧ b.y = coord.y >>> b.levelsAbove ∧
          b.levelsAbove ≤ zoom := by
  intro fuel
  induction fuel with
  | zero =>
    intro la best bd hle hinv b hb
    exact hinv b hb
  | succ n ih =>
    intro la best bd hle hinv b hb
    rw [tflAux] at hb
    rcases hcell : cache (zoom - la) (coord.y >>> la) (coord.x >>> la) with _ | m
    · simp only [hcell] at hb
      exact ih (la + 1) best bd (by omega) hinv b hb
    · simp only [hcell] at hb
      rcases hfnl : findNearestLod m (((lod + la : Nat)) : Int) bd with ⟨cand, bd'⟩
      simp only [hfnl] at hb
      cases cand with
      | some img =>
        refine ih (la + 1) _ bd' (by omega) ?_ b hb
        intro b' hb'
        cases hb'
        refine ⟨rfl, rfl, ?_⟩
        show la ≤ zoom
        omega
      | none => exact ih (la + 1) best bd' (by omega) hinv b hb

/-- The crop geometry: with `q = cx >> la`, the draw offset
    `(q << la - cx) * ts` is nonpositive, and shifting the tile window by its
    magnitude stays inside the scaled ancestor extent `ts << la`. -/
theorem crop_arith (cx la ts : Nat) :
    ((((cx >>> la) <<< la : Nat) : Int) - (cx : Int)) * (ts : Int) ≤ 0 ∧
      (ts : Int) - ((((cx >>> la) <<< la : Nat) : Int) - (cx : Int)) * (ts : Int) ≤
        ((ts <<< la : Nat) : Int) := by
  have hpow : 0 < 2 ^ la := Nat.two_pow_pos la
  have hqr := Nat.div_add_mod cx (2 ^ la)
  have hmod : cx % 2 ^ la < 2 ^ la := Nat.mod_lt cx hpow
  rw [Nat.shiftLeft_eq, Nat.shiftLeft_eq, Nat.shiftRight_eq_div_pow]
  have hdx : ((cx / 2 ^ la * 2 ^ la : Nat) : Int) - (cx : Int) =
      -((cx % 2 ^ la : Nat) : Int) := by
    push_cast
    have hqr' : (2 : Int) ^ la * ((cx : Int) / (2 : Int) ^ la) + (cx : Int) % (2 : Int) ^ la =
        (cx : Int) := Int.ediv_add_emod _ _
    have hcast1 : ((cx / 2 ^ la : Nat) : Int) = (cx : Int) / (2 : Int) ^ la := by
      push_cast
      rfl
    have hcast2 : ((cx % 2 ^ la : Nat) : Int) = (cx : Int) % (2 : Int) ^ la := by
      push_cast
      rfl
    push_cast at hcast1 hcast2
    rw [hcast1, hcast2]
    linarith
  rw [hdx]
  have hts : (0 : Int) ≤ (ts : Int) := Int.ofNat_nonneg ts
  have hr : (0 : Int) ≤ ((cx % 2 ^ la : Nat) : Int) := Int.ofNat_nonneg _
  constructor
  · nlinarith
  · have hr1 : ((cx % 2 ^ la : Nat) : Int) + 1 ≤ ((2 : Int)) ^ la := by
      have h2 : ((cx % 2 ^ la : Nat) : Int) < ((2 ^ la : Nat) : Int) := by
        exact_mod_cast hmod
      have h3 : ((2 ^ la : Nat) : Int) = (2 : Int) ^ la := by push_cast; rfl
      rw [h3] at h2
      linarith
    have hmul := mul_le_mul_of_nonneg_right hr1 hts
    push_cast
    nlinarith

/-- The bound passed to any quadrant's recursive call never exceeds the
    caller's bound. -/
theorem quadBound_le (cache : CacheT) (zoom : Nat) (lod : Int) (pbt : Nat) (cc : Point) :
    quadBound cache zoom lod pbt cc ≤ pbt := by
  unfold quadBound
  split
  · exact le_refl _
  · split
    · exact le_refl _
    · exact findNearestLodB_snd_le _ _ _

/-- The default engine configuration of the source:
    `tileSize = 256`, `levelOfDetail = 0`, `maxOversample = 2`. -/
def cfgDefault : Config := ⟨256, 0, 2⟩

/-- A cache holding one exact entry: `(zoom 5, y 3, x 7, lod 0) ↦ image 42`. -/
def hitCache : CacheT :=
  fun z y x => if z = 5 ∧ y = 3 ∧ x = 7 then some [some 42] else none

/-- A cache holding one entry at `(zoom 0, y 0, x 0, lod 1)`: an ancestor that
    is exact-equivalent (difference 0) for `(zoom 1, (0,0), lod 0)`. -/
def ancCache : CacheT :=
  fun z y x => if z = 0 ∧ y = 0 ∧ x = 0 then some [none, some 5] else none

/-- A cache holding one entry at `(zoom 0, y 0, x 0, lod 0)`. -/
def cornerCache : CacheT :=
  fun z y x => if z = 0 ∧ y = 0 ∧ x = 0 then some [some 9] else none

/-- A cache holding one entry at `(zoom 1, y 0, x 0, lod 0)` only: a
    proxy-only cache for a composite entered at `zoom 1` with `lod 1`. -/
def proxyCache : CacheT :=
  fun z y x => if z = 1 ∧ y = 0 ∧ x = 0 then some [some 7] else none

/-- A cache holding one entry at `(zoom 1, y 1, x 1, lod 1)` only — a sibling
    quadrant's cell for a composite over coordinate `(0,0)` at `zoom 1`. -/
def sibCache : CacheT :=
  fun z y x => if z = 1 ∧ y = 1 ∧ x = 1 then some [none, some 3] else none

/-- The initial engine state: empty cache, no pending fetches. -/
def demoState0 : EngineState := ⟨emptyCache, [], 0⟩

/-- After a first `getTileContent` for `(zoom 0, (0,0))` on the empty cache. -/
def demoState1 : EngineState := (getTileContent cfgDefault demoState0 ⟨0, 0⟩ 0).2

/-- After a second identical `getTileContent`, still before any decode. -/
def demoState2 : EngineState := (getTileContent cfgDefault demoState1 ⟨0, 0⟩ 0).2

/-- After the first fetch's decode completion. -/
def demoState3 : EngineState := completeFetch demoState2 0

/-- After the second fetch's decode completion. -/
def demoState4 : EngineState := completeFetch demoState3 0

theorem demoState1_eq : demoState1 = ⟨emptyCache, [⟨0, 0, 0, 0, 0⟩], 1⟩ := by
  show (getTileContent cfgDefault ⟨emptyCache, [], 0⟩ ⟨0, 0⟩ 0).2 = _
  rw [getTileContent_empty]
  simp [show lodFor cfgDefault 0 = 0 from by decide]

theorem demoState2_eq : demoState2 = ⟨emptyCache, [⟨0, 0, 0, 0, 0⟩, ⟨0, 0, 0, 0, 1⟩], 2⟩ := by
  show (getTileContent cfgDefault demoState1 ⟨0, 0⟩ 0).2 = _
  rw [demoState1_eq, getTileContent_empty]
  simp [show lodFor cfgDefault 0 = 0 from by decide]

theorem demoState3_eq :
    demoState3 = ⟨cacheInsert emptyCache 0 0 0 0 0, [⟨0, 0, 0, 0, 1⟩], 2⟩ := by
  show completeFetch demoState2 0 = _
  rw [demoState2_eq]
  rfl

theorem demoState4_eq :
    demoState4 = ⟨cacheInsert (cacheInsert emptyCache 0 0 0 0 0) 0 0 0 0 1, [], 2⟩ := by
  show completeFetch demoState3 0 = _
  rw [demoState3_eq]
  rfl

/- ------------------------------------------------------------------ -/
/- Claim theorems.                                                     -/
/- ------------------------------------------------------------------ -/

/-- C1 (counterexample): the claim "once an image handle has been stored at a
    cell it is never overwritten — the first successful fetch wins" fails on a
    reachable operation sequence.  Starting from the empty cache, two
    `getTileContent` calls for `(zoom 0, (0,0))` each start a fetch (images
    `0` and `1`); after the first decode completes the cell holds image `0`,
    and the second decode's write replaces it with image `1`. -/
theorem firstWriteWins_counterexample :
    cacheLookup demoState3.cache 0 0 0 0 = some 0 ∧
    cacheLookup demoState4.cache 0 0 0 0 = some 1 ∧ (0 : Image) ≠ 1 := by
  refine ⟨?_, ?_, by decide⟩
  · rw [demoState3_eq]
    decide
  · rw [demoState4_eq]
    decide

/-- C1 (amended): the cache write of a completed fetch is last-writer-wins,
    not first-writer-wins: after `cacheInsert` the written `(zoom, y, x, lod)`
    cell holds exactly the newly decoded image — replacing any image already
    there, since the final step of
    `(((imageCache[zoom] ??= [])[y] ??= [])[x] ??= [])[lod] = image` is a
    plain assignment — while every other cell reads unchanged. -/
theorem cacheWrite_lastWins (cache : CacheT) (zoom y x lod : Nat) (img : Image)
    (z' y' x' : Nat) (l' : Int) :
    cacheLookup (cacheInsert cache zoom y x lod img) z' y' x' l' =
      if z' = zoom ∧ y' = y ∧ x' = x ∧ l' = (lod : Int) then some img
      else cacheLookup cache z' y' x' l' :=
  cacheLookup_cacheInsert cache zoom y x lod img z' y' x' l'

/-- C2: on an exact cache hit at the clamped target LOD, `getTileContent`
    returns exactly that single cached image as its only layer, performs no
    compositing work (no canvas layer is produced) and starts no fetch (the
    engine state, pending fetches included, is returned unchanged). -/
theorem getTileContent_exact_hit (cfg : Config) (s : EngineState) (coord : Point)
    (zoom : Nat) (img : Image)
    (h : cacheLookup s.cache zoom coord.y coord.x ((lodFor cfg zoom : Nat) : Int) = some img) :
    getTileContent cfg s coord zoom = ([Layer.image img], s) := by
  unfold getTileContent
  rw [h]

theorem getTileContent_exact_hit_witness :
    cacheLookup (⟨hitCache, [], 0⟩ : EngineState).cache 5 3 7
        ((lodFor cfgDefault 5 : Nat) : Int) = some 42 ∧
    getTileContent cfgDefault ⟨hitCache, [], 0⟩ ⟨7, 3⟩ 5 =
      ([Layer.image 42], ⟨hitCache, [], 0⟩) :=
  ⟨by decide, getTileContent_exact_hit cfgDefault ⟨hitCache, [], 0⟩ ⟨7, 3⟩ 5 42 (by decide)⟩

/-- C3 (counterexample): a fetch is not started unconditionally on a cache
    miss.  With one cached entry at `(zoom 0, (0,0), lod 1)`, the request
    `(zoom 1, (0,0))` (target LOD 0) misses its cell, yet `tileFromLarger`
    finds that ancestor exact-equivalent (`difference == 0`) and
    `getTileContent` returns it alone without starting any fetch. -/
theorem fetch_unconditional_counterexample :
    cacheLookup ancCache 1 0 0 ((lodFor cfgDefault 1 : Nat) : Int) = none ∧
    (getTileContent cfgDefault ⟨ancCache, [], 0⟩ ⟨0, 0⟩ 1).2.pending = [] ∧
    (getTileContent cfgDefault ⟨ancCache, [], 0⟩ ⟨0, 0⟩ 1).2.nextId = 0 := by
  refine ⟨by decide, ?_, ?_⟩ <;> decide

/-- C3 (amended): on a cache miss where the larger-tile resolver is not
    exact-equivalent (`difference ≠ 0`) and the smaller-tile composite is
    incomplete, `getTileContent` starts exactly one fetch of the exact tile,
    appended to the pending list with key `(zoom, coord.y, coord.x, lod)`,
    and that fetch's decode completion writes the decoded image into the
    cache store at `(zoom, coord.y, coord.x, lod)`. -/
theorem fetch_on_unresolved_miss (cfg : Config) (s : EngineState) (coord : Point) (zoom : Nat)
    (hmiss : cacheLookup s.cache zoom coord.y coord.x ((lodFor cfg zoom : Nat) : Int) = none)
    (hdiff : (tileFromLarger s.cache zoom coord (lodFor cfg zoom) cfg.tileSize).2 ≠ some 0)
    (hincomplete :
      (tileFromSmaller s.cache zoom coord (lodFor cfg zoom)
        (jsOrDefault (tileFromLarger s.cache zoom coord (lodFor cfg zoom) cfg.tileSize).2
          (cfg.maxOversample + 1)) cfg.tileSize).2 = false) :
    (getTileContent cfg s coord zoom).2.pending =
      s.pending ++ [⟨zoom, coord.y, coord.x, lodFor cfg zoom, s.nextId⟩] ∧
    cacheLookup
      (completeFetch (getTileContent cfg s coord zoom).2 s.pending.length).cache
      zoom coord.y coord.x ((lodFor cfg zoom : Nat) : Int) = some s.nextId := by
  unfold getTileContent
  rw [hmiss]
  unfold createTileContent
  rcases htfl : tileFromLarger s.cache zoom coord (lodFor cfg zoom) cfg.tileSize with ⟨fl, df⟩
  rw [htfl] at hdiff hincomplete
  simp only [htfl]
  rw [if_neg hdiff]
  rcases hts : tileFromSmaller s.cache zoom coord (lodFor cfg zoom)
      (jsOrDefault df (cfg.maxOversample + 1)) cfg.tileSize with ⟨fs, comp⟩
  rw [hts] at hincomplete
  simp only [hts]
  simp only at hincomplete
  rw [hincomplete]
  simp only [if_neg Bool.false_ne_true]
  refine ⟨by first | rfl | trivial, ?_⟩
  show cacheLookup (completeFetch
      ⟨s.cache, s.pending ++ [⟨zoom, coord.y, coord.x, lodFor cfg zoom, s.nextId⟩],
      s.nextId + 1⟩ s.pending.length).cache zoom coord.y coord.x _ = some s.nextId
  unfold completeFetch
  have hget : (s.pending ++ [(⟨zoom, coord.y, coord.x, lodFor cfg zoom, s.nextId⟩ : Fetch)])[s.pending.length]? =
      some ⟨zoom, coord.y, coord.x, lodFor cfg zoom, s.nextId⟩ := by
    rw [List.getElem?_append_right (le_refl _)]
    simp
  simp only [hget]
  rw [cacheLookup_cacheInsert]
  rw [if_pos ⟨rfl, rfl, rfl, rfl⟩]

theorem fetch_on_unresolved_miss_witness :
    (getTileContent cfgDefault ⟨emptyCache, [], 0⟩ ⟨0, 0⟩ 0).2.pending =
      ([] : List Fetch) ++ [⟨0, 0, 0, lodFor cfgDefault 0, 0⟩] ∧
    cacheLookup
      (completeFetch (getTileContent cfgDefault ⟨emptyCache, [], 0⟩ ⟨0, 0⟩ 0).2
        (List.length ([] : List Fetch))).cache 0 0 0 ((lodFor cfgDefault 0 : Nat) : Int) =
      some 0 :=
  fetch_on_unresolved_miss cfgDefault ⟨emptyCache, [], 0⟩ ⟨0, 0⟩ 0 (by decide) (by decide)
    (by show (tileFromSmaller emptyCache 0 ⟨0, 0⟩ (lodFor cfgDefault 0) _ 256).2 = false
        unfold tileFromSmaller
        rw [cfs_empty])

/-- C4: the composite's `complete` flag is the conjunction of the four
    quadrants' outcomes (below the termination guard), where a quadrant's
    outcome is `true` exactly when it had an exact cache hit at `lod` or its
    recursive composite was complete — a proxy drawn into a quadrant never
    makes it count; and on a cache whose cells hold no exact entry at any
    level-appropriate LOD (proxies only), the composite is never complete. -/
theorem composite_complete_only_exact (cache : CacheT) (coord : Point) (drect : Rect)
    (zoom : Nat) (lod : Int) (pbt : Nat) (canvas : List DrawOp) :
    ((compositeFromSmaller cache coord drect zoom lod pbt canvas).2 =
      ((!decide (lod + (pbt : Int) < 0)) &&
        quadComplete cache coord drect zoom lod pbt false false &&
        quadComplete cache coord drect zoom lod pbt true false &&
        quadComplete cache coord drect zoom lod pbt false true &&
        quadComplete cache coord drect zoom lod pbt true true)) ∧
    ((∀ z y x, zoom ≤ z →
        cacheLookup cache z y x (lod - ((z - zoom : Nat) : Int)) = none) →
      (compositeFromSmaller cache coord drect zoom lod pbt canvas).2 = false) := by
  constructor
  · by_cases hneg : lod + (pbt : Int) < 0
    · rw [compositeFromSmaller_eq, if_pos hneg]
      simp [hneg]
    · simp only [compositeFromSmaller_eq, if_neg hneg]
      have e1 := quadStep_snd_canvas cache coord drect zoom lod pbt false false canvas []
      have e2 := quadStep_snd_canvas cache coord drect zoom lod pbt true false
        (quadStep cache coord drect zoom lod pbt false false canvas).1 []
      have e3 := quadStep_snd_canvas cache coord drect zoom lod pbt false true
        (quadStep cache coord drect zoom lod pbt true false
          (quadStep cache coord drect zoom lod pbt false false canvas).1).1 []
      have e4 := quadStep_snd_canvas cache coord drect zoom lod pbt true true
        (quadStep cache coord drect zoom lod pbt false true
          (quadStep cache coord drect zoom lod pbt true false
            (quadStep cache coord drect zoom lod pbt false false canvas).1).1).1 []
      simp [quadComplete, hneg, e1, e2, e3, e4]
  · intro hno
    exact cfs_noExact cache coord drect zoom lod pbt canvas hno

theorem composite_complete_only_exact_witness :
    (∀ z y x, 1 ≤ z →
      cacheLookup proxyCache z y x ((1 : Int) - ((z - 1 : Nat) : Int)) = none) ∧
    (compositeFromSmaller proxyCache ⟨0, 0⟩ ⟨0, 0, 256, 256⟩ 1 1 3 []).2 = false := by
  have hno : ∀ z y x, 1 ≤ z →
      cacheLookup proxyCache z y x ((1 : Int) - ((z - 1 : Nat) : Int)) = none := by
    intro z y x hz
    by_cases hc : z = 1 ∧ y = 0 ∧ x = 0
    · obtain ⟨h1, h2, h3⟩ := hc
      subst h1; subst h2; subst h3
      decide
    · unfold cacheLookup proxyCache
      rw [if_neg hc]
      rfl
  exact ⟨hno, (composite_complete_only_exact proxyCache ⟨0, 0⟩ ⟨0, 0, 256, 256⟩ 1 1 3 []).2 hno⟩

/-- C5: for every destination rectangle (any parity of width and height), the
    four quadrant sub-rectangles exactly partition it — every pixel of the
    parent lies in exactly one quadrant, and none lies in two — with the
    left/top quadrants sized `w >> 1` / `h >> 1` and the right/bottom
    quadrants absorbing the remainder starting at `x + (w >> 1)` /
    `y + (h >> 1)`. -/
theorem quadRects_partition (r : Rect) (px py : Nat) :
    (inRect r px py ↔ ∃ i j : Bool, inRect (quadRect r i j) px py) ∧
    (∀ i j i' j' : Bool, inRect (quadRect r i j) px py →
      inRect (quadRect r i' j') px py → i = i' ∧ j = j') ∧
    (quadRect r false false).w = r.w >>> 1 ∧
    (quadRect r true false).w = r.w - (r.w >>> 1) ∧
    (quadRect r false false).h = r.h >>> 1 ∧
    (quadRect r false true).h = r.h - (r.h >>> 1) ∧
    (quadRect r true false).x = r.x + (r.w >>> 1) ∧
    (quadRect r false true).y = r.y + (r.h >>> 1) := by
  have hw : r.w >>> 1 = r.w / 2 := by rw [Nat.shiftRight_eq_div_pow, pow_one]
  have hh : r.h >>> 1 = r.h / 2 := by rw [Nat.shiftRight_eq_div_pow, pow_one]
  refine ⟨?_, ?_, by simp [quadRect], by simp [quadRect], by simp [quadRect],
    by simp [quadRect], by simp [quadRect], by simp [quadRect]⟩
  · constructor
    · intro h
      unfold inRect at h
      by_cases hx : r.x + r.w / 2 ≤ px <;> by_cases hy : r.y + r.h / 2 ≤ py
      · refine ⟨true, true, ?_⟩
        unfold inRect quadRect
        simp only [if_pos rfl, hw, hh]
        simp
        omega
      · refine ⟨true, false, ?_⟩
        unfold inRect quadRect
        simp only [hw, hh]
        simp
        omega
      · refine ⟨false, true, ?_⟩
        unfold inRect quadRect
        simp only [hw, hh]
        simp
        omega
      · refine ⟨false, false, ?_⟩
        unfold inRect quadRect
        simp only [hw, hh]
        simp
        omega
    · rintro ⟨i, j, hij⟩
      unfold inRect quadRect at hij
      unfold inRect
      cases i <;> cases j <;> simp only [hw, hh] at hij <;> simp at hij <;> omega
  · intro i j i' j' h1 h2
    unfold inRect quadRect at h1 h2
    cases i <;> cases j <;> cases i' <;> cases j' <;>
      simp only [hw, hh] at h1 h2 <;> simp at h1 h2 <;>
      first
      | exact ⟨rfl, rfl⟩
      | (exfalso; omega)

/-- C6: `findNearestLod` returns, among the populated entries (strictly
    beating `betterThan` when it is given, all entries eligible when it is
    absent), one of minimal `|LOD - targetLOD|`, breaking ties in favour of
    the first-encountered entry in ascending-LOD order (every strictly
    earlier eligible entry has strictly larger difference), together with its
    difference; when no entry qualifies it returns `(undefined, betterThan)`.
    In particular on `{0 ↦ imgA, 3 ↦ imgB}` with target 2 it returns `imgB`
    with difference 1. -/
theorem findNearestLod_nearest :
    (∀ (m : Mipmap) (t : Int) (b : Option Nat),
      ((findNearestLod m t b).1 = none →
        (findNearestLod m t b).2 = b ∧ ∀ i, ¬ eligibleLod m t b i) ∧
      (∀ img, (findNearestLod m t b).1 = some img →
        ∃ i, m.getD i none = some img ∧ eligibleLod m t b i ∧
          (findNearestLod m t b).2 = some (lodDiff t i) ∧
          (∀ k, eligibleLod m t b k → lodDiff t i ≤ lodDiff t k) ∧
          (∀ k, k < i → eligibleLod m t b k → lodDiff t i < lodDiff t k))) ∧
    findNearestLod [some 10, none, none, some 20] 2 none = (some 20, some 1) := by
  constructor
  · intro m t b
    have hs := findNearestLodFrom_spec m 0 t none b
    rcases hs with ⟨heq, hnone⟩ | ⟨k, hk, h1, h2, hmin, hstrict⟩
    · constructor
      · intro hres
        refine ⟨by rw [findNearestLod, heq], ?_⟩
        intro i hi
        exact hnone i ((eligF_zero m t b i).mpr hi)
      · intro img himg
        rw [findNearestLod, heq] at himg
        exact absurd himg (by simp)
    · constructor
      · intro hres
        rw [findNearestLod] at hres
        rw [hres] at h1
        have := hk.1
        rw [← h1] at this
        simp at this
      · intro img himg
        rw [findNearestLod] at himg
        refine ⟨k, ?_, (eligF_zero m t b k).mp hk, ?_, ?_, ?_⟩
        · rw [← h1, himg]
        · rw [findNearestLod, h2]
          simp
        · intro k2 hk2
          have := hmin k2 ((eligF_zero m t b k2).mpr hk2)
          simpa using this
        · intro k2 hlt hk2
          have := hstrict k2 hlt ((eligF_zero m t b k2).mpr hk2)
          simpa using this
  · decide

theorem findNearestLod_nearest_witness :
    ∃ i, ([some 10, none, none, some 20] : Mipmap).getD i none = some 20 ∧
      eligibleLod [some 10, none, none, some 20] 2 none i ∧
      (findNearestLod [some 10, none, none, some 20] 2 none).2 = some (lodDiff 2 i) ∧
      (∀ k, eligibleLod [some 10, none, none, some 20] 2 none k →
        lodDiff 2 i ≤ lodDiff 2 k) ∧
      (∀ k, k < i → eligibleLod [some 10, none, none, some 20] 2 none k →
        lodDiff 2 i < lodDiff 2 k) :=
  (findNearestLod_nearest.1 [some 10, none, none, some 20] 2 none).2 20 (by decide)

/-- C7 (counterexample): the claim places the pixel offset
    `((ancestorCoord << levelsAbove) - targetCoord) * tileSize` within
    `[0, tileSize << levelsAbove)`; but that offset is the (nonpositive) draw
    position.  With one entry at `(zoom 0, (0,0), lod 0)` and the request
    `(zoom 1, (1,1), lod 0)`, the selected ancestor has `levelsAbove = 1` and
    offset `-256`, which does not lie in `[0, 512)`. -/
theorem crop_offset_counterexample :
    tileFromLarger cornerCache 1 ⟨1, 1⟩ 0 256 =
      (some [⟨9, -256, -256, 512, 512⟩], some 1) ∧
    ¬ ((0 : Int) ≤ -256) := by
  exact ⟨by decide, by decide⟩

/-- C7 (amended): whenever `tileFromLarger` selects an ancestor candidate,
    its `levelsAbove` is at most the requested zoom (so the candidate's zoom
    `zoom - levelsAbove` does not exceed the requested zoom), the canvas
    holds a single draw of the ancestor scaled to
    `ds = tileSize << levelsAbove`, and the draw offsets are nonpositive with
    the visible tile window `[-offset, -offset + tileSize)` lying within
    `[0, ds)` on both axes. -/
theorem tileFromLarger_crop (cache : CacheT) (zoom : Nat) (coord : Point)
    (lod tileSize : Nat) (ops : List DrawOp) (bd : Option Nat)
    (h : tileFromLarger cache zoom coord lod tileSize = (some ops, bd)) :
    ∃ la ≤ zoom, ∃ op : DrawOp, ops = [op] ∧
      op.dw = ((tileSize <<< la : Nat) : Int) ∧
      op.dh = ((tileSize <<< la : Nat) : Int) ∧
      op.dx ≤ 0 ∧ op.dy ≤ 0 ∧
      (tileSize : Int) - op.dx ≤ ((tileSize <<< la : Nat) : Int) ∧
      (tileSize : Int) - op.dy ≤ ((tileSize <<< la : Nat) : Int) := by
  unfold tileFromLarger at h
  rcases hw : tflAux cache coord lod zoom (zoom + 1) 0 (none, none) with ⟨bestO, bdv⟩
  rw [hw] at h
  cases bestO with
  | none => exact absurd h (by simp)
  | some b =>
    simp only [] at h
    have h1 : [(⟨b.image,
        (((b.x <<< b.levelsAbove : Nat) : Int) - (coord.x : Int)) * (tileSize : Int),
        (((b.y <<< b.levelsAbove : Nat) : Int) - (coord.y : Int)) * (tileSize : Int),
        ((tileSize <<< b.levelsAbove : Nat) : Int),
        ((tileSize <<< b.levelsAbove : Nat) : Int)⟩ : DrawOp)] = ops := by
      simpa using congrArg Prod.fst h
    have hinv := tflAux_best_inv cache coord lod zoom (zoom + 1) 0 none none (by omega)
      (fun b' hb' => absurd hb' (by simp)) b (by rw [hw])
    obtain ⟨hbx, hby, hbla⟩ := hinv
    refine ⟨b.levelsAbove, hbla, _, h1.symm, rfl, rfl, ?_, ?_, ?_, ?_⟩
    · show (((b.x <<< b.levelsAbove : Nat) : Int) - (coord.x : Int)) * (tileSize : Int) ≤ 0
      rw [hbx]
      exact (crop_arith coord.x b.levelsAbove tileSize).1
    · show (((b.y <<< b.levelsAbove : Nat) : Int) - (coord.y : Int)) * (tileSize : Int) ≤ 0
      rw [hby]
      exact (crop_arith coord.y b.levelsAbove tileSize).1
    · show (tileSize : Int) -
          (((b.x <<< b.levelsAbove : Nat) : Int) - (coord.x : Int)) * (tileSize : Int) ≤
          ((tileSize <<< b.levelsAbove : Nat) : Int)
      rw [hbx]
      exact (crop_arith coord.x b.levelsAbove tileSize).2
    · show (tileSize : Int) -
          (((b.y <<< b.levelsAbove : Nat) : Int) - (coord.y : Int)) * (tileSize : Int) ≤
          ((tileSize <<< b.levelsAbove : Nat) : Int)
      rw [hby]
      exact (crop_arith coord.y b.levelsAbove tileSize).2

theorem tileFromLarger_crop_witness :
    ∃ la ≤ 1, ∃ op : DrawOp, ([⟨9, -256, -256, 512, 512⟩] : List DrawOp) = [op] ∧
      op.dw = ((256 <<< la : Nat) : Int) ∧
      op.dh = ((256 <<< la : Nat) : Int) ∧
      op.dx ≤ 0 ∧ op.dy ≤ 0 ∧
      ((256 : Nat) : Int) - op.dx ≤ ((256 <<< la : Nat) : Int) ∧
      ((256 : Nat) : Int) - op.dy ≤ ((256 <<< la : Nat) : Int) :=
  tileFromLarger_crop cornerCache 1 ⟨1, 1⟩ 0 256 [⟨9, -256, -256, 512, 512⟩] (some 1)
    (by decide)

/-- C8: the recursion of `compositeFromSmaller` is well-founded exactly as
    claimed (the definition above is compiled with the decreasing measure
    `(lod + proxyBetterThan + 1).toNat`): when `lod + proxyBetterThan < 0`
    the call returns `false` for its branch straight from the guard, without
    recursing; the bound passed to any quadrant's recursive call
    (`quadBound`) never exceeds the caller's; and each recursive call, at
    `lod - 1` with that bound, strictly decreases `lod + proxyBetterThan`. -/
theorem composite_terminates (cache : CacheT) (coord : Point) (drect : Rect) (zoom : Nat)
    (lod : Int) (pbt : Nat) (canvas : List DrawOp) (cc : Point) (i j : Bool) :
    (lod + (pbt : Int) < 0 →
      compositeFromSmaller cache coord drect zoom lod pbt canvas = (canvas, false)) ∧
    quadBound cache zoom lod pbt cc ≤ pbt ∧
    ((lod - 1) + ((quadBound cache zoom lod pbt cc : Nat) : Int) < lod + (pbt : Int)) ∧
    (cacheLookup cache zoom (childCoord coord i j).y (childCoord coord i j).x lod = none →
      quadStep cache coord drect zoom lod pbt i j canvas =
        compositeFromSmaller cache (childCoord coord i j) (quadRect drect i j)
          (zoom + 1) (lod - 1) (quadBound cache zoom lod pbt (childCoord coord i j))
          (canvas ++ quadProxyDraw cache zoom lod pbt (childCoord coord i j)
            (quadRect drect i j))) := by
  refine ⟨?_, quadBound_le cache zoom lod pbt cc, ?_, ?_⟩
  · intro h
    rw [compositeFromSmaller_eq, if_pos h]
  · have hb := quadBound_le cache zoom lod pbt cc
    omega
  · intro h
    exact quadStep_recursion cache coord drect zoom lod pbt i j canvas h

theorem composite_terminates_witness :
    compositeFromSmaller emptyCache ⟨0, 0⟩ ⟨0, 0, 256, 256⟩ 0 (-5) 2 [] = ([], false) ∧
    quadBound emptyCache 0 (-5) 2 ⟨0, 0⟩ ≤ 2 ∧
    quadStep emptyCache ⟨0, 0⟩ ⟨0, 0, 256, 256⟩ 0 (-5) 2 false false [] =
      compositeFromSmaller emptyCache (childCoord ⟨0, 0⟩ false false)
        (quadRect ⟨0, 0, 256, 256⟩ false false) 1 ((-5 : Int) - 1)
        (quadBound emptyCache 0 (-5) 2 (childCoord ⟨0, 0⟩ false false))
        ([] ++ quadProxyDraw emptyCache 0 (-5) 2 (childCoord ⟨0, 0⟩ false false)
          (quadRect ⟨0, 0, 256, 256⟩ false false)) := by
  have h := composite_terminates emptyCache ⟨0, 0⟩ ⟨0, 0, 256, 256⟩ 0 (-5) 2 [] ⟨0, 0⟩
    false false
  exact ⟨h.1 (by decide), h.2.1, h.2.2.2 (by decide)⟩

/-- C9: `getTileContent` is a total function (the embedding is a Lean
    function, so it can neither throw nor return an error value) that always
    returns at least one drawable layer; and on a state whose cache is empty
    — no data at any level — it returns exactly a blank composite canvas
    plus the in-flight fetch image. -/
theorem getTileContent_total (cfg : Config) (s : EngineState) (coord : Point) (zoom : Nat) :
    1 ≤ (getTileContent cfg s coord zoom).1.length ∧
    (s.cache = emptyCache →
      (getTileContent cfg s coord zoom).1 = [Layer.canvas [], Layer.image s.nextId]) := by
  constructor
  · unfold getTileContent
    rcases hit : cacheLookup s.cache zoom coord.y coord.x ((lodFor cfg zoom : Nat) : Int)
      with _ | img
    · simp only [hit]
      unfold createTileContent
      rcases htfl : tileFromLarger s.cache zoom coord (lodFor cfg zoom) cfg.tileSize
        with ⟨fl, df⟩
      simp only [htfl]
      by_cases hdf : df = some 0
      · simp [hdf]
      · rw [if_neg hdf]
        rcases hts : tileFromSmaller s.cache zoom coord (lodFor cfg zoom)
            (jsOrDefault df (cfg.maxOversample + 1)) cfg.tileSize with ⟨fs, comp⟩
        simp only [hts]
        cases comp
        · cases fl <;> simp
        · simp
    · simp [hit]
  · intro hc
    rcases s with ⟨sc, sp, sn⟩
    simp only [] at hc
    subst hc
    rw [getTileContent_empty]

theorem getTileContent_total_witness :
    (⟨emptyCache, [], 0⟩ : EngineState).cache = emptyCache ∧
    (getTileContent cfgDefault ⟨emptyCache, [], 0⟩ ⟨0, 0⟩ 0).1 =
      [Layer.canvas [], Layer.image (⟨emptyCache, [], 0⟩ : EngineState).nextId] :=
  ⟨rfl, (getTileContent_total cfgDefault ⟨emptyCache, [], 0⟩ ⟨0, 0⟩ 0).2 rfl⟩

/-- C10: a quadrant's contribution to `compositeFromSmaller` — its step on
    the canvas and completeness, and the `quadBound` its recursive call
    receives — is determined by the caller's bound `pbt` and the cache
    restricted to that quadrant's own cell and subtree alone: two caches
    agreeing there give identical outcomes, so entries at sibling quadrants
    (and the proxies found there) never tighten the bound used for another
    quadrant. -/
theorem quadrant_independent (cache1 cache2 : CacheT) (coord : Point) (drect : Rect)
    (zoom : Nat) (lod : Int) (pbt : Nat) (i j : Bool)
    (hagree : ∀ z y x, zoom ≤ z → y >>> (z - zoom) = (childCoord coord i j).y →
      x >>> (z - zoom) = (childCoord coord i j).x → cache1 z y x = cache2 z y x) :
    quadStep cache1 coord drect zoom lod pbt i j [] =
      quadStep cache2 coord drect zoom lod pbt i j [] ∧
    quadBound cache1 zoom lod pbt (childCoord coord i j) =
      quadBound cache2 zoom lod pbt (childCoord coord i j) := by
  have hcell : cache1 zoom (childCoord coord i j).y (childCoord coord i j).x =
      cache2 zoom (childCoord coord i j).y (childCoord coord i j).x := by
    apply hagree zoom _ _ (le_refl _) <;> simp
  have hsub : ∀ z y x, zoom + 1 ≤ z →
      y >>> (z - (zoom + 1) + 1) = (childCoord coord i j).y →
      x >>> (z - (zoom + 1) + 1) = (childCoord coord i j).x →
      cache1 z y x = cache2 z y x := by
    intro z y x hz hy hx
    apply hagree z y x (by omega)
    · rw [show z - zoom = z - (zoom + 1) + 1 from by omega]; exact hy
    · rw [show z - zoom = z - (zoom + 1) + 1 from by omega]; exact hx
  constructor
  · unfold quadStep
    rw [hcell]
    split
    next hc2 => exact cfs_frame cache1 cache2 _ _ _ _ _ _ hsub
    next m hc2 =>
      split
      next child hchild => rfl
      next hchild => exact cfs_frame cache1 cache2 _ _ _ _ _ _ hsub
  · unfold quadBound
    rw [hcell]

theorem quadrant_independent_witness :
    (∀ z y x, 1 ≤ z → y >>> (z - 1) = (childCoord ⟨0, 0⟩ false false).y →
      x >>> (z - 1) = (childCoord ⟨0, 0⟩ false false).x →
      emptyCache z y x = sibCache z y x) ∧
    quadStep emptyCache ⟨0, 0⟩ ⟨0, 0, 256, 256⟩ 1 1 3 false false [] =
      quadStep sibCache ⟨0, 0⟩ ⟨0, 0, 256, 256⟩ 1 1 3 false false [] := by
  have hag : ∀ z y x, 1 ≤ z → y >>> (z - 1) = (childCoord ⟨0, 0⟩ false false).y →
      x >>> (z - 1) = (childCoord ⟨0, 0⟩ false false).x →
      emptyCache z y x = sibCache z y x := by
    intro z y x hz hy hx
    by_cases hc : z = 1 ∧ y = 1 ∧ x = 1
    · exfalso
      obtain ⟨h1, h2, h3⟩ := hc
      subst h1; subst h2; subst h3
      exact absurd hy (by decide)
    · show emptyCache z y x = sibCache z y x
      unfold emptyCache sibCache
      rw [if_neg hc]
  exact ⟨hag,
    (quadrant_independent emptyCache sibCache ⟨0, 0⟩ ⟨0, 0, 256, 256⟩ 1 1 3 false false
      hag).1⟩

end Wms
